import Mathlib

/-!
Shallow embedding of `src/Knuth-Morris-Pratt.rs` (Rust): a generic
Knuth-Morris-Pratt substring search over slices of any equality-comparable
element type.

The two Rust functions `compute_lps_table` and `kmp_search` use `while`
loops with mutable locals; they are embedded as fuel-indexed structurally
recursive functions.  Slice indexing `xs[i]`, which panics in Rust when out
of bounds, is embedded with `List.getElem?`; an out-of-bounds read (and
fuel exhaustion, which cannot happen for the fuel chosen below, as proved)
yields `none`.  The fuel arguments are not part of the source: they are
chosen large enough, and the correctness theorems prove the loops finish
before exhausting them.

Spec-side reference definitions (`lbord`, `occurrenceAt`, `bruteForce`)
follow the specification's words: longest proper prefix that is also a
proper suffix, and the brute-force elementwise occurrence search.
-/

namespace KMP

section Embedding

variable {α : Type} [DecidableEq α]

/-- Embedding of the `while i < needle.len()` loop of `compute_lps_table`
(src lines 79–97).  State: the table `lps` under construction, the running
candidate length `length`, and the scan index `i`.  `none` models an
out-of-bounds slice access (a Rust panic) or fuel exhaustion. -/
def lpsLoop (needle : List α) : Nat → List Nat → Nat → Nat → Option (List Nat)
  | 0, _, _, _ => none
  | fuel + 1, lps, length, i =>
    if i < needle.length then
      match needle[i]?, needle[length]? with
      | some a, some b =>
        if a = b then
          if i < lps.length then
            lpsLoop needle fuel (lps.set i (length + 1)) (length + 1) (i + 1)
          else none
        else
          if length ≠ 0 then
            match lps[length - 1]? with
            | some l => lpsLoop needle fuel lps l i
            | none => none
          else
            if i < lps.length then
              lpsLoop needle fuel (lps.set i 0) 0 (i + 1)
            else none
      | _, _ => none
    else some lps

/-- Embedding of `compute_lps_table` (src lines 65–100): empty needle gives
an empty table, otherwise the table starts as `vec![0; needle.len()]` and
is filled in by the loop starting from `length = 0`, `i = 1`. -/
def compute_lps_table (needle : List α) : Option (List Nat) :=
  if needle.isEmpty then some []
  else
    lpsLoop needle ((needle.length + 1) * (needle.length + 1))
      (List.replicate needle.length 0) 0 1

/-- Embedding of the `while i < haystack.len()` loop of `kmp_search`
(src lines 34–58).  One fuel step is one iteration of the Rust loop: first
the optional elementwise match advances `i` and `j`, then either a full
match is recorded and `j` falls back through the table, or a mismatch is
handled (fall back when `j ≠ 0`, otherwise advance `i`). -/
def kmpLoop (haystack needle : List α) (lps : List Nat) :
    Nat → Nat → Nat → List Nat → Option (List Nat)
  | 0, _, _, _ => none
  | fuel + 1, i, j, results =>
    if i < haystack.length then
      match haystack[i]?, needle[j]? with
      | some a, some b =>
        let i2 := if a = b then i + 1 else i
        let j2 := if a = b then j + 1 else j
        if j2 = needle.length then
          match lps[j2 - 1]? with
          | some l => kmpLoop haystack needle lps fuel i2 l (results ++ [i2 - j2])
          | none => none
        else
          if i2 < haystack.length then
            match haystack[i2]?, needle[j2]? with
            | some c, some d =>
              if c ≠ d then
                if j2 ≠ 0 then
                  match lps[j2 - 1]? with
                  | some l => kmpLoop haystack needle lps fuel i2 l results
                  | none => none
                else kmpLoop haystack needle lps fuel (i2 + 1) j2 results
              else kmpLoop haystack needle lps fuel i2 j2 results
            | _, _ => none
          else kmpLoop haystack needle lps fuel i2 j2 results
      | _, _ => none
    else some results

/-- Embedding of `kmp_search` (src lines 17–61): empty or oversized needle
returns `vec![]` at once; otherwise the LPS table is built and the scan
loop runs from `i = 0`, `j = 0` with an empty result vector. -/
def kmp_search (haystack needle : List α) : Option (List Nat) :=
  if needle.isEmpty ∨ haystack.length < needle.length then some []
  else
    match compute_lps_table needle with
    | some lps =>
        kmpLoop haystack needle lps
          ((haystack.length + 1) * (needle.length + 1)) 0 0 []
    | none => none

/-- Spec-side definition, following the specification's words: the length of
the longest string that is both a proper prefix and a proper suffix of `w`
(`0` for the empty word).  A candidate length `k ≤ |w| - 1` is a border
when the prefix of length `k` equals the suffix of length `k`. -/
def lbord (w : List α) : Nat :=
  Nat.findGreatest (fun k => w.take k = w.drop (w.length - k)) (w.length - 1)

/-- Spec-side definition: the needle occurs in the haystack at position `p`
(elementwise equality of `haystack[p .. p + needle.length]` with the
needle). -/
def occurrenceAt (haystack needle : List α) (p : Nat) : Prop :=
  (haystack.drop p).take needle.length = needle

instance (haystack needle : List α) (p : Nat) :
    Decidable (occurrenceAt haystack needle p) := by
  unfold occurrenceAt; infer_instance

/-- Spec-side definition: the brute-force reference search, listing in
increasing order every position at which the needle occurs. -/
def bruteForce (haystack needle : List α) : List Nat :=
  (List.range (haystack.length + 1 - needle.length)).filter
    fun p => decide (occurrenceAt haystack needle p)

/-! ### Basic facts about `lbord` (longest proper border) -/

theorem lbord_le (w : List α) : lbord w ≤ w.length - 1 := by
  unfold lbord
  exact Nat.findGreatest_le _

theorem lbord_lt_length (w : List α) (hw : w ≠ []) : lbord w < w.length := by
  have h1 : 0 < w.length := List.length_pos.mpr hw
  have h2 := lbord_le w
  omega

theorem lbord_bordEq (w : List α) :
    w.take (lbord w) = w.drop (w.length - lbord w) := by
  unfold lbord
  by_cases h :
      Nat.findGreatest (fun k => w.take k = w.drop (w.length - k))
        (w.length - 1) = 0
  · rw [h]; simp
  · exact Nat.findGreatest_of_ne_zero rfl h

theorem le_lbord (w : List α) (k : Nat) (hk : k < w.length)
    (hb : w.take k = w.drop (w.length - k)) : k ≤ lbord w :=
  Nat.le_findGreatest (by omega) hb

end Embedding

/-! ### Toolkit: slices, snoc, and borders of prefixes -/

section Slices

variable {α : Type}

theorem lt_length_of_getElem? {w : List α} {i : Nat} {a : α}
    (h : w[i]? = some a) : i < w.length := by
  by_contra hlt
  rw [List.getElem?_eq_none (by omega)] at h
  exact Option.noConfusion h

theorem take_succ_of_some {w : List α} {i : Nat} {a : α} (h : w[i]? = some a) :
    w.take (i + 1) = w.take i ++ [a] := by
  rw [List.take_succ, h]; rfl

theorem snoc_inj {xs ys : List α} {x y : α} (h : xs ++ [x] = ys ++ [y]) :
    xs = ys ∧ x = y := by
  have hl : xs.length = ys.length := by
    have h2 := congrArg List.length h
    simp only [List.length_append, List.length_cons] at h2
    omega
  obtain ⟨h1, h2⟩ := List.append_inj h hl
  exact ⟨h1, by simpa using h2⟩

/-- A length-`(k+1)` border of the prefix `w.take (i+1)` is the same thing as
a length-`k` border of `w.take i` whose one-step extension matches `w[i]`. -/
theorem bordEq_take_succ {w : List α} {a : α} {i k : Nat}
    (ha : w[i]? = some a) (hk : k ≤ i) :
    ((w.take (i + 1)).take (k + 1) = (w.take (i + 1)).drop (i - k)) ↔
      (w.take k = (w.take i).drop (i - k) ∧ w[k]? = some a) := by
  have hi : i < w.length := lt_length_of_getElem? ha
  have hkw : k < w.length := by omega
  have hc : w[k]? = some w[k] := List.getElem?_eq_getElem hkw
  have e1 : (w.take (i + 1)).take (k + 1) = w.take k ++ [w[k]] := by
    rw [List.take_take, Nat.min_eq_left (by omega), take_succ_of_some hc]
  have e2 : (w.take (i + 1)).drop (i - k) = (w.take i).drop (i - k) ++ [a] := by
    rw [take_succ_of_some ha,
      List.drop_append_of_le_length (by rw [List.length_take]; omega)]
  rw [e1, e2]
  constructor
  · intro h
    obtain ⟨h1, h2⟩ := snoc_inj h
    exact ⟨h1, by rw [hc, h2]⟩
  · rintro ⟨h1, h2⟩
    have h3 : w[k] = a := by
      rw [hc] at h2; exact Option.some.inj h2
    rw [h1, h3]

/-- A border of `w.take i` shorter than a border `j` of `w.take i` is a
border of `w.take j`. -/
theorem bordEq_shrink {w : List α} {i j k : Nat} (hk : k ≤ j) (hj : j ≤ i)
    (hbj : w.take j = (w.take i).drop (i - j))
    (hbk : w.take k = (w.take i).drop (i - k)) :
    w.take k = (w.take j).drop (j - k) := by
  rw [hbj, List.drop_drop, show (i - j) + (j - k) = i - k from by omega]
  exact hbk

/-- A border of a border of `w.take i` is a border of `w.take i`. -/
theorem bordEq_trans {w : List α} {i j k : Nat} (hk : k ≤ j) (hj : j ≤ i)
    (hbj : w.take j = (w.take i).drop (i - j))
    (hbk : w.take k = (w.take j).drop (j - k)) :
    w.take k = (w.take i).drop (i - k) := by
  rw [hbk, hbj, List.drop_drop, show (i - j) + (j - k) = i - k from by omega]

end Slices

section LbordPrefix

variable {α : Type} [DecidableEq α]

/-- The `lbord` of a prefix, restated as a border equation on `w` itself. -/
theorem lbord_take_bordEq {w : List α} {L : Nat} (hL : L ≤ w.length) :
    w.take (lbord (w.take L)) = (w.take L).drop (L - lbord (w.take L)) := by
  have hlen : (w.take L).length = L := by rw [List.length_take]; omega
  have h1 := lbord_bordEq (w.take L)
  rw [hlen] at h1
  have hle : lbord (w.take L) ≤ L := by
    have := lbord_le (w.take L); rw [hlen] at this; omega
  have h2 : (w.take L).take (lbord (w.take L)) = w.take (lbord (w.take L)) := by
    rw [List.take_take, Nat.min_eq_left hle]
  rw [← h2]
  exact h1

/-- Maximality of `lbord` of a prefix, for border equations on `w` itself. -/
theorem bordEq_take_le_lbord {w : List α} {L k : Nat} (hL : L ≤ w.length)
    (hk : k < L) (hb : w.take k = (w.take L).drop (L - k)) :
    k ≤ lbord (w.take L) := by
  have hlen : (w.take L).length = L := by rw [List.length_take]; omega
  apply le_lbord (w.take L) k
  · omega
  · rw [hlen, List.take_take, Nat.min_eq_left (by omega)]
    exact hb

end LbordPrefix

/-- Arithmetic step used for the fuel bookkeeping of both loops. -/
theorem fuel_mul_step {A B i : Nat} (h : i < A) :
    (A - i) * B = (A - (i + 1)) * B + B := by
  rw [show A - i = (A - (i + 1)) + 1 from by omega, Nat.add_mul, Nat.one_mul]

/-! ### Correctness of the LPS-table construction

The loop invariant, at the head of each iteration of the `while` loop of
`compute_lps_table` with state `(lps, length, i)`:

* entries `lps[0] … lps[i-1]` already hold the longest-proper-border lengths
  of the corresponding needle prefixes;
* `length < i`, `needle.take length` is a border of `needle.take i`;
* every longer border of `needle.take i` has already been ruled out for
  extension: its next element differs from `needle[i]`.
-/

section LpsCorrect

variable {α : Type} [DecidableEq α]

theorem lpsLoop_correct (needle : List α) :
    ∀ fuel i length lps, 1 ≤ i → i ≤ needle.length →
      lps.length = needle.length →
      (∀ t, t < i → lps[t]? = some (lbord (needle.take (t + 1)))) →
      length < i →
      needle.take length = (needle.take i).drop (i - length) →
      (∀ k, length < k → k < i →
        needle.take k = (needle.take i).drop (i - k) →
        needle[k]? ≠ needle[i]?) →
      (needle.length - i) * (needle.length + 1) + length < fuel →
      ∃ t, lpsLoop needle fuel lps length i = some t ∧
        t.length = needle.length ∧
        ∀ k, k < needle.length → t[k]? = some (lbord (needle.take (k + 1))) := by
  intro fuel
  induction fuel with
  | zero => intro i length lps _ _ _ _ _ _ _ hfuel; omega
  | succ fuel ih =>
    intro i length lps h1i hile hlen hprev hL1 hL2 hL3 hfuel
    by_cases hi : i < needle.length
    case neg =>
      refine ⟨lps, ?_, hlen, ?_⟩
      · simp only [lpsLoop, if_neg hi]
      · intro k hk; exact hprev k (by omega)
    case pos =>
      have hlength_lt : length < needle.length := by omega
      obtain ⟨a, ha⟩ : ∃ x, needle[i]? = some x :=
        ⟨needle[i], List.getElem?_eq_getElem hi⟩
      obtain ⟨b, hb⟩ : ∃ x, needle[length]? = some x :=
        ⟨needle[length], List.getElem?_eq_getElem hlength_lt⟩
      simp only [lpsLoop, if_pos hi, ha, hb]
      by_cases hab : a = b
      case pos =>
        rw [if_pos hab, if_pos (show i < lps.length by omega)]
        -- the extension matches: the longest border of `take (i+1)` is `length + 1`
        have hbord : (needle.take (i + 1)).take (length + 1) =
            (needle.take (i + 1)).drop (i - length) :=
          (bordEq_take_succ ha (by omega)).mpr ⟨hL2, by rw [hb, hab]⟩
        have key : lbord (needle.take (i + 1)) = length + 1 := by
          have hup : lbord (needle.take (i + 1)) ≤ length + 1 := by
            by_contra hgt
            push_neg at hgt
            have hKlt : lbord (needle.take (i + 1)) < i + 1 := by
              have h2 := lbord_lt_length (needle.take (i + 1)) (by
                apply List.length_pos.mp
                rw [List.length_take]; omega)
              rwa [List.length_take, Nat.min_eq_left (by omega)] at h2
            have hbK : needle.take (lbord (needle.take (i + 1))) =
                (needle.take (i + 1)).drop ((i + 1) - lbord (needle.take (i + 1))) :=
              lbord_take_bordEq (by omega)
            have hbK2 : (needle.take (i + 1)).take
                ((lbord (needle.take (i + 1)) - 1) + 1) =
                (needle.take (i + 1)).drop (i - (lbord (needle.take (i + 1)) - 1)) := by
              have e : (needle.take (i + 1)).take (lbord (needle.take (i + 1))) =
                  needle.take (lbord (needle.take (i + 1))) := by
                rw [List.take_take, Nat.min_eq_left (by omega)]
              rw [show (lbord (needle.take (i + 1)) - 1) + 1 =
                    lbord (needle.take (i + 1)) from by omega, e,
                show i - (lbord (needle.take (i + 1)) - 1) =
                    (i + 1) - lbord (needle.take (i + 1)) from by omega]
              exact hbK
            obtain ⟨hb1, hb2⟩ := (bordEq_take_succ ha (by omega)).mp hbK2
            exact hL3 (lbord (needle.take (i + 1)) - 1) (by omega) (by omega) hb1
              (by rw [hb2, ha])
          have hdown : length + 1 ≤ lbord (needle.take (i + 1)) := by
            apply bordEq_take_le_lbord (by omega) (by omega)
            rw [show (i + 1) - (length + 1) = i - length from by omega]
            have e : (needle.take (i + 1)).take (length + 1) =
                needle.take (length + 1) := by
              rw [List.take_take, Nat.min_eq_left (by omega)]
            rw [← e]
            exact hbord
          omega
        apply ih (i + 1) (length + 1) (lps.set i (length + 1)) (by omega) (by omega)
        · rw [List.length_set]; exact hlen
        · intro t ht
          by_cases hti : t = i
          · subst hti
            rw [List.getElem?_set_self (by omega), key]
          · rw [List.getElem?_set_ne (by omega)]
            exact hprev t (by omega)
        · omega
        · rw [show (i + 1) - (length + 1) = i - length from by omega]
          have e : (needle.take (i + 1)).take (length + 1) =
              needle.take (length + 1) := by
            rw [List.take_take, Nat.min_eq_left (by omega)]
          rw [← e]
          exact hbord
        · intro k hk1 hk2 hbk
          exfalso
          have hle : k ≤ lbord (needle.take (i + 1)) :=
            bordEq_take_le_lbord (by omega) hk2 hbk
          rw [key] at hle; omega
        · rw [fuel_mul_step hi] at hfuel; omega
      case neg =>
        rw [if_neg hab]
        by_cases hl0 : length = 0
        case neg =>
          rw [if_pos hl0]
          have hread : lps[length - 1]? =
              some (lbord (needle.take ((length - 1) + 1))) :=
            hprev (length - 1) (by omega)
          rw [show (length - 1) + 1 = length from by omega] at hread
          simp only [hread]
          have hlen_le : length ≤ needle.length := by omega
          have htlen : (needle.take length).length = length := by
            rw [List.length_take]; omega
          have hLlt : lbord (needle.take length) < length := by
            have h2 := lbord_lt_length (needle.take length) (by
              apply List.length_pos.mp; omega)
            rwa [htlen] at h2
          apply ih i (lbord (needle.take length)) lps h1i hile hlen hprev
            (by omega)
          · -- the shorter candidate is still a border of `take i`
            have hbk : needle.take (lbord (needle.take length)) =
                (needle.take length).drop (length - lbord (needle.take length)) :=
              lbord_take_bordEq hlen_le
            exact bordEq_trans (by omega) (by omega) hL2 hbk
          · intro k hk1 hk2 hbk
            rcases Nat.lt_trichotomy k length with hkl | hke | hkg
            · exfalso
              have hsh : needle.take k = (needle.take length).drop (length - k) :=
                bordEq_shrink (by omega) (by omega) hL2 hbk
              have hle : k ≤ lbord (needle.take length) :=
                bordEq_take_le_lbord hlen_le hkl hsh
              omega
            · subst hke
              rw [hb, ha]
              intro hEq
              exact hab (Option.some.inj hEq).symm
            · exact hL3 k hkg hk2 hbk
          · omega
        case pos =>
          subst hl0
          rw [if_neg (by omega), if_pos (show i < lps.length by omega)]
          have key0 : lbord (needle.take (i + 1)) = 0 := by
            by_contra h0
            have hKlt : lbord (needle.take (i + 1)) < i + 1 := by
              have h2 := lbord_lt_length (needle.take (i + 1)) (by
                apply List.length_pos.mp
                rw [List.length_take]; omega)
              rwa [List.length_take, Nat.min_eq_left (by omega)] at h2
            have hbK : needle.take (lbord (needle.take (i + 1))) =
                (needle.take (i + 1)).drop ((i + 1) - lbord (needle.take (i + 1))) :=
              lbord_take_bordEq (by omega)
            have hbK2 : (needle.take (i + 1)).take
                ((lbord (needle.take (i + 1)) - 1) + 1) =
                (needle.take (i + 1)).drop (i - (lbord (needle.take (i + 1)) - 1)) := by
              have e : (needle.take (i + 1)).take (lbord (needle.take (i + 1))) =
                  needle.take (lbord (needle.take (i + 1))) := by
                rw [List.take_take, Nat.min_eq_left (by omega)]
              rw [show (lbord (needle.take (i + 1)) - 1) + 1 =
                    lbord (needle.take (i + 1)) from by omega, e,
                show i - (lbord (needle.take (i + 1)) - 1) =
                    (i + 1) - lbord (needle.take (i + 1)) from by omega]
              exact hbK
            obtain ⟨hb1, hb2⟩ := (bordEq_take_succ ha (by omega)).mp hbK2
            by_cases hK1 : lbord (needle.take (i + 1)) - 1 = 0
            · rw [hK1, hb] at hb2
              exact hab (Option.some.inj hb2).symm
            · exact hL3 (lbord (needle.take (i + 1)) - 1) (by omega) (by omega) hb1
                (by rw [hb2, ha])
          apply ih (i + 1) 0 (lps.set i 0) (by omega) (by omega)
          · rw [List.length_set]; exact hlen
          · intro t ht
            by_cases hti : t = i
            · subst hti
              rw [List.getElem?_set_self (by omega), key0]
            · rw [List.getElem?_set_ne (by omega)]
              exact hprev t (by omega)
          · omega
          · rw [List.take_zero, Nat.sub_zero]
            symm
            apply List.drop_eq_nil_of_le
            rw [List.length_take]; omega
          · intro k hk1 hk2 hbk
            exfalso
            have hle : k ≤ lbord (needle.take (i + 1)) :=
              bordEq_take_le_lbord (by omega) hk2 hbk
            rw [key0] at hle; omega
          · rw [fuel_mul_step hi] at hfuel; omega

/-- Functional correctness of `compute_lps_table`: it always succeeds and
computes, for every position `k`, the longest proper border length of
`needle.take (k+1)`. -/
theorem compute_lps_table_correct (needle : List α) :
    ∃ t, compute_lps_table needle = some t ∧ t.length = needle.length ∧
      ∀ k, k < needle.length → t[k]? = some (lbord (needle.take (k + 1))) := by
  by_cases hne : needle.isEmpty
  case pos =>
    have hnil : needle = [] := List.isEmpty_iff.mp hne
    refine ⟨[], ?_, ?_, ?_⟩
    · simp [compute_lps_table, hne]
    · simp [hnil]
    · intro k hk; rw [hnil] at hk; simp at hk
  case neg =>
    have hnil : needle ≠ [] := by
      intro h; rw [h] at hne; simp at hne
    have hpos : 1 ≤ needle.length := by
      have := List.length_pos.mpr hnil; omega
    unfold compute_lps_table
    rw [if_neg hne]
    apply lpsLoop_correct needle _ 1 0 (List.replicate needle.length 0)
      (by omega) hpos (by rw [List.length_replicate])
    · intro t ht
      have ht0 : t = 0 := by omega
      subst ht0
      rw [List.getElem?_replicate_of_lt (by omega)]
      have hb1 : lbord (needle.take (0 + 1)) ≤ 0 := by
        have h2 := lbord_le (needle.take (0 + 1))
        rw [List.length_take, Nat.min_eq_left (by omega)] at h2
        omega
      rw [show lbord (needle.take (0 + 1)) = 0 from by omega]
    · omega
    · rw [List.take_zero]
      symm
      apply List.drop_eq_nil_of_le
      rw [List.length_take]; omega
    · intro k hk1 hk2; omega
    · have h2 : (needle.length - 1) * (needle.length + 1) <
          (needle.length + 1) * (needle.length + 1) :=
        (Nat.mul_lt_mul_right (by omega)).mpr (by omega)
      omega

end LpsCorrect

/-! ### Facts about occurrences and the brute-force reference -/

section Occurrence

variable {α : Type}

theorem occurrenceAt_take {haystack needle : List α} {p q : Nat}
    (h : occurrenceAt haystack needle p) (hq : q ≤ needle.length) :
    needle.take q = (haystack.take (p + q)).drop p := by
  unfold occurrenceAt at h
  rw [← h, List.take_take, Nat.min_eq_left hq, List.take_drop]

theorem occurrenceAt_getElem {haystack needle : List α} {p t : Nat}
    (h : occurrenceAt haystack needle p) (ht : t < needle.length) :
    needle[t]? = haystack[p + t]? := by
  unfold occurrenceAt at h
  conv_lhs => rw [← h]
  rw [List.getElem?_take_of_lt ht, List.getElem?_drop]

theorem occurrenceAt_of_take_drop {haystack needle : List α} {i : Nat}
    (hm : needle.length ≤ i + 1)
    (h : needle = (haystack.take (i + 1)).drop ((i + 1) - needle.length)) :
    occurrenceAt haystack needle (i + 1 - needle.length) := by
  unfold occurrenceAt
  rw [List.take_drop,
    show (i + 1 - needle.length) + needle.length = i + 1 from by omega]
  exact h.symm

theorem filter_range_succ_no {m i : Nat} {f : Nat → Bool}
    (h : m ≤ i + 1 → f (i + 1 - m) = false) :
    (List.range (i + 1 + 1 - m)).filter f = (List.range (i + 1 - m)).filter f := by
  rcases Nat.lt_or_ge (i + 1) m with hm | hm
  · rw [show i + 1 + 1 - m = i + 1 - m from by omega]
  · rw [show i + 1 + 1 - m = (i + 1 - m) + 1 from by omega, List.range_succ,
      List.filter_append]
    simp [h hm]

theorem filter_range_succ_yes {m i : Nat} {f : Nat → Bool} (hm : m ≤ i + 1)
    (h : f (i + 1 - m) = true) :
    (List.range (i + 1 + 1 - m)).filter f =
      (List.range (i + 1 - m)).filter f ++ [i + 1 - m] := by
  rw [show i + 1 + 1 - m = (i + 1 - m) + 1 from by omega, List.range_succ,
    List.filter_append]
  simp [h]

end Occurrence

/-! ### Correctness of the scan loop

The loop invariant, at the head of each iteration of the `while` loop of
`kmp_search` with state `(i, j, results)`:

* `j < m`, `j ≤ i ≤ n`;
* the first `j` needle elements match the haystack just before `i`;
* `results` holds exactly the occurrence positions `p` with `p + m ≤ i`,
  in increasing order (stated as a `filter` over `List.range`);
* completeness: every occurrence starting strictly before `i - j` has
  already finished by `i` (and so is recorded).
-/

section ScanCorrect

variable {α : Type} [DecidableEq α]

/-- Falling back from a mismatch at state `(i, j)` to the longest proper
border of `needle.take j` preserves the partial-match and completeness
invariants, and strictly decreases `j`. -/
theorem fallback_invariants (haystack needle : List α) {i j : Nat} {a b : α}
    (hjm : j < needle.length) (hji : j ≤ i) (hj0 : j ≠ 0)
    (ha : haystack[i]? = some a) (hb : needle[j]? = some b) (hab : ¬a = b)
    (hS2 : needle.take j = (haystack.take i).drop (i - j))
    (hS4 : ∀ p, p < i - j → occurrenceAt haystack needle p →
      p + needle.length ≤ i) :
    lbord (needle.take j) < j ∧
    needle.take (lbord (needle.take j)) =
      (haystack.take i).drop (i - lbord (needle.take j)) ∧
    ∀ p, p < i - lbord (needle.take j) → occurrenceAt haystack needle p →
      p + needle.length ≤ i := by
  have hjle : j ≤ needle.length := by omega
  have htlen : (needle.take j).length = j := by rw [List.length_take]; omega
  have hLlt : lbord (needle.take j) < j := by
    have h2 := lbord_lt_length (needle.take j)
      (by apply List.length_pos.mp; omega)
    rwa [htlen] at h2
  refine ⟨hLlt, ?_, ?_⟩
  · -- the border is still a partial match at `i`
    have hbk : needle.take (lbord (needle.take j)) =
        (needle.take j).drop (j - lbord (needle.take j)) :=
      lbord_take_bordEq hjle
    calc needle.take (lbord (needle.take j))
        = (needle.take j).drop (j - lbord (needle.take j)) := hbk
      _ = ((haystack.take i).drop (i - j)).drop (j - lbord (needle.take j)) := by
          rw [← hS2]
      _ = (haystack.take i).drop (i - lbord (needle.take j)) := by
          rw [List.drop_drop,
            show (i - j) + (j - lbord (needle.take j)) =
              i - lbord (needle.take j) from by omega]
  · -- no occurrence was skipped by the fallback
    intro p hp hocc
    rcases Nat.lt_or_ge p (i - j) with hpJ | hpJ
    · exact hS4 p hpJ hocc
    · exfalso
      have hkle : i - p ≤ j := by omega
      by_cases hkJ : i - p = j
      · -- the occurrence would extend the current partial match at `i`
        have he := occurrenceAt_getElem hocc (show j < needle.length from hjm)
        rw [show p + j = i from by omega, hb, ha] at he
        exact hab (Option.some.inj he).symm
      · -- a longer border of `needle.take j` than its longest proper border
        have hklt : i - p < j := by omega
        have hpar := occurrenceAt_take hocc (show i - p ≤ needle.length from by omega)
        rw [show p + (i - p) = i from by omega] at hpar
        have hbord : needle.take (i - p) =
            (needle.take j).drop (j - (i - p)) := by
          calc needle.take (i - p) = (haystack.take i).drop p := hpar
            _ = ((haystack.take i).drop (i - j)).drop (j - (i - p)) := by
                rw [List.drop_drop,
                  show (i - j) + (j - (i - p)) = p from by omega]
            _ = (needle.take j).drop (j - (i - p)) := by rw [← hS2]
        have hle : i - p ≤ lbord (needle.take j) :=
          bordEq_take_le_lbord hjle hklt hbord
        omega

theorem kmpLoop_correct (haystack needle : List α) (lps : List Nat)
    (hnil : needle ≠ [])
    (hlps : ∀ k, k < needle.length →
      lps[k]? = some (lbord (needle.take (k + 1)))) :
    ∀ fuel i j res,
      j < needle.length → j ≤ i → i ≤ haystack.length →
      needle.take j = (haystack.take i).drop (i - j) →
      res = (List.range (i + 1 - needle.length)).filter
        (fun p => decide (occurrenceAt haystack needle p)) →
      (∀ p, p < i - j → occurrenceAt haystack needle p →
        p + needle.length ≤ i) →
      (haystack.length - i) * (needle.length + 1) + j < fuel →
      kmpLoop haystack needle lps fuel i j res =
        some (bruteForce haystack needle) := by
  have hm1 : 1 ≤ needle.length := by
    have := List.length_pos.mpr hnil; omega
  intro fuel
  induction fuel with
  | zero => intro i j res _ _ _ _ _ _ hfuel; omega
  | succ fuel ih =>
    intro i j res hjm hji hin hS2 hS3 hS4 hfuel
    by_cases hi : i < haystack.length
    case neg =>
      have hieq : i = haystack.length := by omega
      simp only [kmpLoop, if_neg hi]
      rw [hS3, hieq]
      rfl
    case pos =>
      obtain ⟨a, ha⟩ : ∃ x, haystack[i]? = some x :=
        ⟨haystack[i], List.getElem?_eq_getElem hi⟩
      obtain ⟨b, hb⟩ : ∃ x, needle[j]? = some x :=
        ⟨needle[j], List.getElem?_eq_getElem hjm⟩
      simp only [kmpLoop, if_pos hi, ha, hb]
      by_cases hab : a = b
      case pos =>
        simp only [if_pos hab]
        have hS2x : needle.take (j + 1) =
            (haystack.take (i + 1)).drop ((i + 1) - (j + 1)) := by
          rw [show (i + 1) - (j + 1) = i - j from by omega,
            take_succ_of_some ha,
            List.drop_append_of_le_length (by rw [List.length_take]; omega),
            take_succ_of_some hb, ← hS2, hab]
        by_cases hjm1 : j + 1 = needle.length
        case pos =>
          rw [if_pos hjm1]
          have hread : lps[j + 1 - 1]? = some (lbord needle) := by
            rw [show j + 1 - 1 = j from by omega, hlps j (by omega), hjm1,
              List.take_length]
          simp only [hread]
          have hfull : needle =
              (haystack.take (i + 1)).drop ((i + 1) - needle.length) := by
            have h2 := hS2x
            rw [hjm1, List.take_length] at h2
            exact h2
          have hocc : occurrenceAt haystack needle (i + 1 - needle.length) :=
            occurrenceAt_of_take_drop (by omega) hfull
          have hlbm := lbord_lt_length needle hnil
          have hlble := lbord_le needle
          apply ih (i + 1) (lbord needle) (res ++ [i + 1 - (j + 1)]) hlbm
            (by omega) (by omega)
          · have hstep : (haystack.take (i + 1)).drop ((i + 1) - lbord needle) =
                needle.drop (needle.length - lbord needle) := by
              rw [show (i + 1) - lbord needle =
                    ((i + 1) - needle.length) + (needle.length - lbord needle)
                  from by omega,
                ← List.drop_drop, ← hfull]
            exact (lbord_bordEq needle).trans hstep.symm
          · rw [show i + 1 - (j + 1) = i + 1 - needle.length from by omega, hS3,
              ← @filter_range_succ_yes needle.length i
                (fun p => decide (occurrenceAt haystack needle p)) (by omega)
                (decide_eq_true hocc)]
          · intro p hp hocc2
            rcases Nat.lt_or_ge p (i + 1 - needle.length) with hpJ | hpJ
            · have h4 := hS4 p (by omega) hocc2
              omega
            · by_cases hpeq : p = i + 1 - needle.length
              · omega
              · exfalso
                have hklt : i + 1 - p < needle.length := by omega
                have hpar := occurrenceAt_take hocc2
                  (show i + 1 - p ≤ needle.length from by omega)
                rw [show p + (i + 1 - p) = i + 1 from by omega] at hpar
                have hbord : needle.take (i + 1 - p) =
                    needle.drop (needle.length - (i + 1 - p)) := by
                  calc needle.take (i + 1 - p)
                      = (haystack.take (i + 1)).drop p := hpar
                    _ = ((haystack.take (i + 1)).drop ((i + 1) - needle.length)).drop
                          (needle.length - (i + 1 - p)) := by
                        rw [List.drop_drop,
                          show ((i + 1) - needle.length) +
                              (needle.length - (i + 1 - p)) = p from by omega]
                    _ = needle.drop (needle.length - (i + 1 - p)) := by
                        rw [← hfull]
                have hle := le_lbord needle (i + 1 - p) hklt hbord
                omega
          · rw [fuel_mul_step hi] at hfuel
            omega
        case neg =>
          rw [if_neg hjm1]
          have hjm2 : j + 1 < needle.length := by omega
          have hnoocc : needle.length ≤ i + 1 →
              (fun p => decide (occurrenceAt haystack needle p))
                (i + 1 - needle.length) = false := by
            intro hm
            apply decide_eq_false
            intro hocc
            have h4 := hS4 (i + 1 - needle.length) (by omega) hocc
            omega
          have hS3x : res = (List.range ((i + 1) + 1 - needle.length)).filter
              (fun p => decide (occurrenceAt haystack needle p)) := by
            rw [hS3]
            exact (@filter_range_succ_no needle.length i
              (fun p => decide (occurrenceAt haystack needle p)) hnoocc).symm
          have hS4x : ∀ p, p < (i + 1) - (j + 1) →
              occurrenceAt haystack needle p → p + needle.length ≤ i + 1 := by
            intro p hp hocc
            have h4 := hS4 p (by omega) hocc
            omega
          by_cases hi1 : i + 1 < haystack.length
          case neg =>
            rw [if_neg hi1]
            apply ih (i + 1) (j + 1) res hjm2 (by omega) (by omega) hS2x hS3x hS4x
            rw [fuel_mul_step hi] at hfuel
            omega
          case pos =>
            rw [if_pos hi1]
            obtain ⟨c, hc⟩ : ∃ x, haystack[i + 1]? = some x :=
              ⟨haystack[i + 1], List.getElem?_eq_getElem hi1⟩
            obtain ⟨d, hd⟩ : ∃ x, needle[j + 1]? = some x :=
              ⟨needle[j + 1], List.getElem?_eq_getElem hjm2⟩
            simp only [hc, hd]
            by_cases hcd : c = d
            case pos =>
              rw [if_neg (show ¬c ≠ d from fun h => h hcd)]
              apply ih (i + 1) (j + 1) res hjm2 (by omega) (by omega) hS2x hS3x hS4x
              rw [fuel_mul_step hi] at hfuel
              omega
            case neg =>
              rw [if_pos hcd, if_pos (show j + 1 ≠ 0 from by omega)]
              have hread : lps[j + 1 - 1]? =
                  some (lbord (needle.take (j + 1))) := by
                rw [show j + 1 - 1 = j from by omega]
                exact hlps j (by omega)
              simp only [hread]
              obtain ⟨hLlt, hS2f, hS4f⟩ := fallback_invariants haystack needle
                hjm2 (by omega) (by omega) hc hd hcd hS2x hS4x
              apply ih (i + 1) (lbord (needle.take (j + 1))) res (by omega)
                (by omega) (by omega) hS2f hS3x hS4f
              rw [fuel_mul_step hi] at hfuel
              omega
      case neg =>
        simp only [if_neg hab]
        rw [if_neg (show ¬j = needle.length from by omega), if_pos hi]
        simp only [ha, hb]
        rw [if_pos (show a ≠ b from hab)]
        by_cases hj0 : j = 0
        case pos =>
          subst hj0
          rw [if_neg (show ¬(0 : Nat) ≠ 0 from fun h => h rfl)]
          have hnoocc : needle.length ≤ i + 1 →
              (fun p => decide (occurrenceAt haystack needle p))
                (i + 1 - needle.length) = false := by
            intro hm
            apply decide_eq_false
            intro hocc
            rcases Nat.lt_or_ge (i + 1 - needle.length) i with hpi | hpi
            · have h4 := hS4 (i + 1 - needle.length) (by omega) hocc
              omega
            · have he := occurrenceAt_getElem hocc
                (show 0 < needle.length from by omega)
              rw [show i + 1 - needle.length + 0 = i from by omega, hb, ha] at he
              exact hab (Option.some.inj he).symm
          apply ih (i + 1) 0 res (by omega) (by omega) (by omega)
          · rw [List.take_zero, Nat.sub_zero]
            symm
            apply List.drop_eq_nil_of_le
            rw [List.length_take]; omega
          · rw [hS3]
            exact (@filter_range_succ_no needle.length i
              (fun p => decide (occurrenceAt haystack needle p)) hnoocc).symm
          · intro p hp hocc
            rcases Nat.lt_or_ge p i with hpi | hpi
            · have h4 := hS4 p (by omega) hocc
              omega
            · exfalso
              have he := occurrenceAt_getElem hocc
                (show 0 < needle.length from by omega)
              rw [show p + 0 = i from by omega, hb, ha] at he
              exact hab (Option.some.inj he).symm
          · rw [fuel_mul_step hi] at hfuel
            omega
        case neg =>
          rw [if_pos hj0]
          have hread : lps[j - 1]? = some (lbord (needle.take j)) := by
            have h2 := hlps (j - 1) (by omega)
            rw [show j - 1 + 1 = j from by omega] at h2
            exact h2
          simp only [hread]
          obtain ⟨hLlt, hS2f, hS4f⟩ := fallback_invariants haystack needle
            hjm hji hj0 ha hb hab hS2 hS4
          apply ih i (lbord (needle.take j)) res (by omega) (by omega) hin
            hS2f hS3 hS4f
          omega

/-- `kmp_search` on a degenerate input (empty needle, or needle longer than
the haystack) immediately returns the empty list. -/
theorem kmp_search_degenerate (haystack needle : List α)
    (h : needle = [] ∨ haystack.length < needle.length) :
    kmp_search haystack needle = some [] := by
  unfold kmp_search
  rcases h with h | h
  · rw [if_pos (Or.inl (by simp [h]))]
  · rw [if_pos (Or.inr h)]

/-- Main functional-correctness theorem: for every non-empty needle,
`kmp_search` succeeds and returns exactly the brute-force occurrence list. -/
theorem kmp_search_eq_bruteForce (haystack needle : List α)
    (hnil : needle ≠ []) :
    kmp_search haystack needle = some (bruteForce haystack needle) := by
  have hm1 : 1 ≤ needle.length := by
    have := List.length_pos.mpr hnil; omega
  have hne : ¬needle.isEmpty := by simp [List.isEmpty_eq_true, hnil]
  unfold kmp_search
  by_cases hlen : haystack.length < needle.length
  case pos =>
    rw [if_pos (Or.inr hlen)]
    unfold bruteForce
    rw [show haystack.length + 1 - needle.length = 0 from by omega,
      List.range_zero]
    rfl
  case neg =>
    rw [if_neg (show ¬(needle.isEmpty ∨ haystack.length < needle.length) from by
      rintro (h | h)
      · exact hne h
      · exact hlen h)]
    obtain ⟨t, ht, htlen, htvals⟩ := compute_lps_table_correct needle
    rw [ht]
    apply kmpLoop_correct haystack needle t hnil htvals
      ((haystack.length + 1) * (needle.length + 1)) 0 0 [] (by omega) (by omega)
      (by omega)
    · simp
    · rw [show 0 + 1 - needle.length = 0 from by omega, List.range_zero]
      rfl
    · intro p hp hocc; omega
    · have h2 : (haystack.length - 0) * (needle.length + 1) <
          (haystack.length + 1) * (needle.length + 1) :=
        (Nat.mul_lt_mul_right (by omega)).mpr (by omega)
      omega

end ScanCorrect

/-! ### Small helper facts used by the claim theorems -/

section Helpers

variable {α : Type} [DecidableEq α]

theorem lbord_take_le (needle : List α) (k : Nat) (hk : k < needle.length) :
    lbord (needle.take (k + 1)) ≤ k := by
  have h2 := lbord_le (needle.take (k + 1))
  rw [List.length_take] at h2
  omega

end Helpers

/-! ### The claims -/

section Claims

/-- C1, counterexample to the claim as stated: with an empty needle the
brute-force position set is non-empty (every position trivially matches the
empty needle elementwise), while kmp_search returns the empty list by
policy; so the two disagree on haystack [0], needle []. -/
theorem C1_counterexample :
    kmp_search ([0] : List Nat) [] ≠ some (bruteForce ([0] : List Nat) []) := by
  decide

/-- C1 (amended): for every haystack and every NON-EMPTY needle,
kmp_search returns exactly the brute-force reference result: the
strictly increasing list of all positions p such that
haystack[p..p+len(needle)] equals needle elementwise, with no omissions
and no duplicates. -/
theorem C1_search_eq_reference {α : Type} [DecidableEq α]
    (haystack needle : List α) (hnil : needle ≠ []) :
    kmp_search haystack needle = some (bruteForce haystack needle) :=
  kmp_search_eq_bruteForce haystack needle hnil

/-- C1 witness: the amended theorem applied at a concrete input. -/
theorem C1_witness :
    (['a', 'b', 'a'] : List Char) ≠ [] ∧
      kmp_search (['a', 'b', 'a', 'b', 'a'] : List Char) ['a', 'b', 'a'] =
        some (bruteForce (['a', 'b', 'a', 'b', 'a'] : List Char)
          ['a', 'b', 'a']) :=
  ⟨by decide, C1_search_eq_reference _ _ (by decide)⟩

/-- C2: compute_lps_table returns an empty table for an empty needle;
otherwise a table with table[0] = 0 and, for each k from 1 to len-1,
table[k] equal to the length of the longest string that is both a proper
prefix and a proper suffix of needle[0..=k] (the spec-side lbord). -/
theorem C2_lps_spec {α : Type} [DecidableEq α] (needle : List α) :
    (needle = [] → compute_lps_table needle = some []) ∧
    (needle ≠ [] → ∃ t, compute_lps_table needle = some t ∧
      t.length = needle.length ∧ t[0]? = some 0 ∧
      ∀ k, 1 ≤ k → k < needle.length →
        t[k]? = some (lbord (needle.take (k + 1)))) := by
  constructor
  · intro h
    subst h
    unfold compute_lps_table
    simp
  · intro hnil
    obtain ⟨t, ht, htlen, htvals⟩ := compute_lps_table_correct needle
    have hm1 : 1 ≤ needle.length := by
      have := List.length_pos.mpr hnil; omega
    refine ⟨t, ht, htlen, ?_, ?_⟩
    · have h0 := htvals 0 (by omega)
      have hz : lbord (needle.take (0 + 1)) ≤ 0 := lbord_take_le needle 0 (by omega)
      rw [h0, show lbord (needle.take (0 + 1)) = 0 from by omega]
    · intro k _ hk
      exact htvals k hk

/-- C2 witness: the theorem applied at a concrete non-empty needle. -/
theorem C2_witness :
    ∃ t, compute_lps_table (['a', 'b', 'a', 'b'] : List Char) = some t ∧
      t.length = (['a', 'b', 'a', 'b'] : List Char).length ∧ t[0]? = some 0 ∧
      ∀ k, 1 ≤ k → k < (['a', 'b', 'a', 'b'] : List Char).length →
        t[k]? = some (lbord ((['a', 'b', 'a', 'b'] : List Char).take (k + 1))) :=
  (C2_lps_spec (['a', 'b', 'a', 'b'] : List Char)).2 (by decide)

/-- C3: for an empty needle, or a needle longer than the haystack,
kmp_search returns the empty list as a defined result (not an error). -/
theorem C3_degenerate_empty_result {α : Type} [DecidableEq α]
    (haystack needle : List α)
    (h : needle = [] ∨ haystack.length < needle.length) :
    kmp_search haystack needle = some [] :=
  kmp_search_degenerate haystack needle h

/-- C3 witness: both degenerate cases at concrete inputs. -/
theorem C3_witness :
    ((([] : List Nat) = [] ∨
        ([1, 2] : List Nat).length < ([] : List Nat).length) ∧
      kmp_search ([1, 2] : List Nat) [] = some []) ∧
    ((([1, 2, 3] : List Nat) = [] ∨
        ([1, 2] : List Nat).length < ([1, 2, 3] : List Nat).length) ∧
      kmp_search ([1, 2] : List Nat) [1, 2, 3] = some []) :=
  ⟨⟨Or.inl rfl, C3_degenerate_empty_result _ _ (Or.inl rfl)⟩,
   ⟨Or.inr (by decide), C3_degenerate_empty_result _ _ (Or.inr (by decide))⟩⟩

/-- C4: the LPS table has the same length as the needle, its entries are
natural numbers, table[0] = 0 for a non-empty needle, and every entry
satisfies table[k] <= k. -/
theorem C4_table_invariants {α : Type} [DecidableEq α] (needle : List α) :
    ∃ t, compute_lps_table needle = some t ∧ t.length = needle.length ∧
      (needle ≠ [] → t[0]? = some 0) ∧
      ∀ (k v : Nat), t[k]? = some v → v ≤ k := by
  obtain ⟨t, ht, htlen, htvals⟩ := compute_lps_table_correct needle
  refine ⟨t, ht, htlen, ?_, ?_⟩
  · intro hnil
    have hm1 : 1 ≤ needle.length := by
      have := List.length_pos.mpr hnil; omega
    have h0 := htvals 0 (by omega)
    have hz : lbord (needle.take (0 + 1)) ≤ 0 := lbord_take_le needle 0 (by omega)
    rw [h0, show lbord (needle.take (0 + 1)) = 0 from by omega]
  · intro k v hkv
    by_cases hk : k < needle.length
    · rw [htvals k hk] at hkv
      have hv := Option.some.inj hkv
      have hle := lbord_take_le needle k hk
      omega
    · rw [List.getElem?_eq_none (by omega)] at hkv
      exact Option.noConfusion hkv

/-- C4 witness: the theorem applied at a concrete needle. -/
theorem C4_witness :
    ∃ t, compute_lps_table (['x', 'y'] : List Char) = some t ∧
      t.length = (['x', 'y'] : List Char).length ∧
      ((['x', 'y'] : List Char) ≠ [] → t[0]? = some 0) ∧
      ∀ (k v : Nat), t[k]? = some v → v ≤ k :=
  C4_table_invariants (['x', 'y'] : List Char)

/-- C5: every list returned by kmp_search is strictly increasing (hence
duplicate-free) and each element p satisfies p + len(needle) <=
len(haystack), i.e. p lies in the interval [0, n - m]. -/
theorem C5_ascending_in_range {α : Type} [DecidableEq α]
    (haystack needle : List α) (l : List Nat)
    (h : kmp_search haystack needle = some l) :
    List.Pairwise (· < ·) l ∧
      ∀ p ∈ l, p + needle.length ≤ haystack.length := by
  by_cases hnil : needle = []
  · rw [kmp_search_degenerate haystack needle (Or.inl hnil)] at h
    have hl : l = [] := (Option.some.inj h).symm
    subst hl
    exact ⟨List.Pairwise.nil, by intro p hp; simp at hp⟩
  · rw [kmp_search_eq_bruteForce haystack needle hnil] at h
    have hl : l = bruteForce haystack needle := (Option.some.inj h).symm
    subst hl
    constructor
    · exact (List.pairwise_lt_range _).filter _
    · intro p hp
      unfold bruteForce at hp
      have hpr := List.mem_range.mp (List.mem_of_mem_filter hp)
      omega

/-- C5 witness: the theorem applied at a concrete run of the search. -/
theorem C5_witness :
    List.Pairwise (· < ·) [0, 2, 4] ∧
      ∀ p ∈ [0, 2, 4],
        p + (['a', 'b', 'a'] : List Char).length ≤
          (['a', 'b', 'a', 'b', 'a', 'b', 'a'] : List Char).length :=
  C5_ascending_in_range _ _ [0, 2, 4] (by decide)

/-- C6: both functions are total over all finite inputs: every haystack
and needle (empty and oversized inputs included) produce a well-defined
result list, never a failure. -/
theorem C6_totality {α : Type} [DecidableEq α] (haystack needle : List α) :
    (∃ l, kmp_search haystack needle = some l) ∧
    (∃ t, compute_lps_table needle = some t) := by
  constructor
  · by_cases hnil : needle = []
    · exact ⟨[], kmp_search_degenerate haystack needle (Or.inl hnil)⟩
    · exact ⟨bruteForce haystack needle,
        kmp_search_eq_bruteForce haystack needle hnil⟩
  · obtain ⟨t, ht, -, -⟩ := compute_lps_table_correct needle
    exact ⟨t, ht⟩

/-- C7: kmp_search reports overlapping occurrences: on haystack "abababa"
and needle "aba" (as element sequences) the result is exactly [0, 2, 4]. -/
theorem C7_overlapping_matches :
    kmp_search (['a', 'b', 'a', 'b', 'a', 'b', 'a'] : List Char)
      ['a', 'b', 'a'] = some [0, 2, 4] := by
  decide

/-- C8, counterexample to the claim as stated: on the numeric scenario the
search returns [10], not [9] as the claim (copying the source comment)
asserts; the unique occurrence of [1,2,3,5] starts at index 10. -/
theorem C8_counterexample :
    kmp_search ([1, 2, 3, 1, 2, 4, 5, 1, 2, 3, 1, 2, 3, 5] : List Nat)
      [1, 2, 3, 5] ≠ some [9] := by
  decide

/-- C8 (amended): the literal scenarios, with the numeric one corrected to
its actual result [10]: "ABABCABABABCD" / "ABABCD" gives [7], the numeric
sequence gives [10], and "abcdefg" / "xyz" gives []. -/
theorem C8_literal_scenarios :
    kmp_search
        (['A', 'B', 'A', 'B', 'C', 'A', 'B', 'A', 'B', 'A', 'B', 'C', 'D'] :
          List Char)
        ['A', 'B', 'A', 'B', 'C', 'D'] = some [7] ∧
    kmp_search ([1, 2, 3, 1, 2, 4, 5, 1, 2, 3, 1, 2, 3, 5] : List Nat)
      [1, 2, 3, 5] = some [10] ∧
    kmp_search (['a', 'b', 'c', 'd', 'e', 'f', 'g'] : List Char)
      ['x', 'y', 'z'] = some [] := by
  decide

/-- C9: kmp_search is a pure, deterministic function of its inputs: equal
inputs yield equal results (in this embedding it is a mathematical
function, so determinism is congruence). -/
theorem C9_pure_deterministic {α : Type} [DecidableEq α]
    (h1 n1 h2 n2 : List α) (hh : h1 = h2) (hn : n1 = n2) :
    kmp_search h1 n1 = kmp_search h2 n2 := by
  rw [hh, hn]

/-- C9 witness: the theorem applied at a concrete input. -/
theorem C9_witness :
    kmp_search ([1, 2, 1] : List Nat) [1] =
      kmp_search ([1, 2, 1] : List Nat) [1] :=
  C9_pure_deterministic _ _ _ _ rfl rfl

/-- C10: no sequence index evaluated during either function is out of
bounds: in this embedding every out-of-bounds read (and fuel exhaustion)
yields none, and the result is never none, for any input. -/
theorem C10_no_out_of_bounds {α : Type} [DecidableEq α]
    (haystack needle : List α) :
    kmp_search haystack needle ≠ none ∧ compute_lps_table needle ≠ none := by
  constructor
  · by_cases hnil : needle = []
    · rw [kmp_search_degenerate haystack needle (Or.inl hnil)]
      simp
    · rw [kmp_search_eq_bruteForce haystack needle hnil]
      simp
  · obtain ⟨t, ht, -, -⟩ := compute_lps_table_correct needle
    rw [ht]
    simp

end Claims

end KMP
